import Mathlib

/-!
Verification development for the word-matching core of a recitation-checking
web application.

The program compares a reference Arabic text against a live speech transcript.
Its algorithmic core is:

* word extraction (maximal runs of characters in the Arabic block
  U+0600 - U+06FF),
* an Arabic-specific normalizer (diacritic stripping, alif folding,
  alif-maksura folding),
* two Levenshtein-distance routines (a full-matrix one and a two-rolling-row
  one),
* a similarity scorer over normalized words,
* a consuming greedy word aligner (`matchWords` of the word-matching service),
* a non-consuming per-reference-word reporting view and a session-completion
  gate (both in the UI component).

JavaScript strings are modelled as lists of UTF-16 code units (all characters
involved lie in the Basic Multilingual Plane, so code units coincide with code
points), and JavaScript numbers as exact rationals.
-/

/-- A JavaScript string, as its list of UTF-16 code units. -/
abbrev JSStr := List Nat

/-- Membership in the character class `[؀-ۿ]` of the word-extraction
regular expression. -/
def isArabicChar (c : Nat) : Bool :=
  decide (0x600 ≤ c ∧ c ≤ 0x6FF)

/-- Helper for `extractWords`: scan the text, accumulating the current run of
Arabic characters (in reverse) in `acc`. -/
def extractWordsAux : JSStr → JSStr → List JSStr
  | [], acc => if acc = [] then [] else [acc.reverse]
  | c :: cs, acc =>
    if isArabicChar c then extractWordsAux cs (c :: acc)
    else if acc = [] then extractWordsAux cs [] else acc.reverse :: extractWordsAux cs []

/-- `text.match(/[؀-ۿ]+/g) || []`: the list of maximal runs of
Arabic-block characters, in order. -/
def extractWords (text : JSStr) : List JSStr :=
  extractWordsAux text []

/-- Membership in the harakat/diacritics class `[ً-ٰٟ]`. -/
def isHarakat (c : Nat) : Bool :=
  decide ((0x64B ≤ c ∧ c ≤ 0x65F) ∨ c = 0x670)

/-- First `.replace` pass of `normalizeArabic`: remove harakat. -/
def removeDiacritics (t : JSStr) : JSStr :=
  t.filter (fun c => !isHarakat c)

/-- Character action of the second `.replace` pass: fold the alif variants
U+0622, U+0623, U+0625 to plain alif U+0627. -/
def foldAlifChar (c : Nat) : Nat :=
  if c = 0x622 ∨ c = 0x623 ∨ c = 0x625 then 0x627 else c

/-- Second `.replace` pass of `normalizeArabic`. -/
def foldAlif (t : JSStr) : JSStr :=
  t.map foldAlifChar

/-- Character action of the third `.replace` pass: fold alif maksura U+0649 to
yeh U+064A. -/
def foldYaChar (c : Nat) : Nat :=
  if c = 0x649 then 0x64A else c

/-- Third `.replace` pass of `normalizeArabic`. -/
def foldYa (t : JSStr) : JSStr :=
  t.map foldYaChar

/-- `WordMatchingService.normalizeArabic`: the three `.replace` passes in
source order (identical in both service variants). -/
def normalizeArabic (text : JSStr) : JSStr :=
  foldYa (foldAlif (removeDiacritics text))

/-- Reference Levenshtein distance, by the textbook recurrence.  Used as the
mathematical middle ground between the two array-based implementations in the
source and the edit-script characterization. -/
def lev : List Nat → List Nat → Nat
  | [], ys => ys.length
  | _ :: xs, [] => xs.length + 1
  | x :: xs, y :: ys =>
    if x = y then lev xs ys
    else 1 + min (lev xs ys) (min (lev (x :: xs) ys) (lev xs (y :: ys)))
termination_by xs ys => xs.length + ys.length
decreasing_by all_goals simp_arith

/-- `b.charAt(i-1) === a.charAt(j-1) ? 0 : 1` of the rolling-row
implementation. -/
def levCost (x y : Nat) : Nat :=
  if x = y then 0 else 1

/-- Inner loop (`j = 1 .. a.length`) of one row of the rolling-row
`levenshteinDistance` (part_003): given the current row character `bc` of `b`,
the remaining characters of `a`, the cell to the left (`currRow[j-1]`), the
diagonal cell (`prevRow[j-1]`) and the rest of the previous row
(`prevRow[j..]`), produce `currRow[1..]`. -/
def rowRest3 (bc : Nat) : List Nat → Nat → Nat → List Nat → List Nat
  | [], _, _, _ => []
  | _ :: _, _, _, [] => []
  | ac :: as_, left, pdiag, p :: ps =>
    let v := min (pdiag + levCost bc ac) (min (p + 1) (left + 1))
    v :: rowRest3 bc as_ v p ps

/-- One outer-loop iteration of the rolling-row implementation: from
`prevRow`, build `currRow` for row index `i` (so `currRow[0] = i`). -/
def nextRow3 (a : List Nat) (bc : Nat) (i : Nat) : List Nat → List Nat
  | [] => [i]
  | pdiag :: ps => i :: rowRest3 bc a i pdiag ps

/-- Outer loop (`i = 1 .. b.length`) of the rolling-row implementation. -/
def rows3 (a : List Nat) : List Nat → Nat → List Nat → List Nat
  | [], _, prev => prev
  | bc :: bs, i, prev => rows3 a bs (i + 1) (nextRow3 a bc i prev)

/-- `WordMatchingService.levenshteinDistance`, two-rolling-row variant
(part_003): early returns for empty strings, first row `0,1,...,a.length`,
then one row per character of `b`; the answer is the last cell of the final
row. -/
def levenshteinDistance3 (a b : List Nat) : Nat :=
  if a.length = 0 then b.length
  else if b.length = 0 then a.length
  else (rows3 a b 1 (List.range (a.length + 1))).getD a.length 0

/-- Inner loop of one row of the full-matrix `levenshteinDistance`
(part_002).  When the characters agree the cell copies the diagonal
directly; otherwise it is
`min(matrix[i-1][j-1]+1, matrix[i][j-1]+1, matrix[i-1][j]+1)`. -/
def rowRest2 (bc : Nat) : List Nat → Nat → Nat → List Nat → List Nat
  | [], _, _, _ => []
  | _ :: _, _, _, [] => []
  | ac :: as_, left, pdiag, p :: ps =>
    let v := if bc = ac then pdiag else min (pdiag + 1) (min (left + 1) (p + 1))
    v :: rowRest2 bc as_ v p ps

/-- One row of the full-matrix implementation (row `i`, `matrix[i][0] = i`). -/
def nextRow2 (a : List Nat) (bc : Nat) (i : Nat) : List Nat → List Nat
  | [] => [i]
  | pdiag :: ps => i :: rowRest2 bc a i pdiag ps

/-- Row-by-row evaluation of the full matrix (each row only depends on the
previous one, so keeping just the previous row is faithful). -/
def rows2 (a : List Nat) : List Nat → Nat → List Nat → List Nat
  | [], _, prev => prev
  | bc :: bs, i, prev => rows2 a bs (i + 1) (nextRow2 a bc i prev)

/-- `WordMatchingService.levenshteinDistance`, full-matrix variant (part_002):
row 0 is `0,1,...,a.length`, rows `1..b.length` follow the recurrence, and the
answer is `matrix[b.length][a.length]`. -/
def levenshteinDistance2 (a b : List Nat) : Nat :=
  (rows2 a b 1 (List.range (a.length + 1))).getD a.length 0

/-- `WordMatchingService.calculateSimilarity` (part_003; part_002 differs only
in which `levenshteinDistance` routine it calls, see
`calculateSimilarity2_eq`). -/
def calculateSimilarity (word1 word2 : JSStr) : ℚ :=
  if word1 = word2 then 1
  else if word1.length = 0 ∨ word2.length = 0 then 0
  else
    let normalizedA := normalizeArabic word1
    let normalizedB := normalizeArabic word2
    if normalizedA = normalizedB then 9 / 10
    else
      let distance := levenshteinDistance3 normalizedA normalizedB
      let maxLength := max normalizedA.length normalizedB.length
      if 0 < maxLength then 1 - (distance : ℚ) / (maxLength : ℚ) else 0

/-- `WordMatchingService.calculateSimilarity` as in part_002 (same code, but
calling the full-matrix distance). -/
def calculateSimilarity2 (word1 word2 : JSStr) : ℚ :=
  if word1 = word2 then 1
  else if word1.length = 0 ∨ word2.length = 0 then 0
  else
    let normalizedA := normalizeArabic word1
    let normalizedB := normalizeArabic word2
    if normalizedA = normalizedB then 9 / 10
    else
      let distance := levenshteinDistance2 normalizedA normalizedB
      let maxLength := max normalizedA.length normalizedB.length
      if 0 < maxLength then 1 - (distance : ℚ) / (maxLength : ℚ) else 0

/-- The `WordMatchResult` record of the word-matching service. -/
structure WordMatchResult where
  matchedWords : List JSStr
  unmatchedWords : List JSStr
  accuracy : ℚ
  matchedCount : Nat
  totalWords : Nat
  perfectMatch : Bool
deriving DecidableEq

/-- Inner loop of `matchWords`: scan the still unmatched expected words,
keeping `(bestMatchIndex, bestMatchSimilarity)` (initially `(-1, 0)`); an
entry becomes the new best iff
`similarity > bestMatchSimilarity && similarity >= similarityThreshold`. -/
def findBestAux (tw : JSStr) (th : ℚ) : List JSStr → Nat → Int → ℚ → Int × ℚ
  | [], _, bi, bs => (bi, bs)
  | ew :: rest, i, bi, bs =>
    let s := calculateSimilarity ew tw
    if bs < s ∧ th ≤ s then findBestAux tw th rest (i + 1) (i : Int) s
    else findBestAux tw th rest (i + 1) bi bs

/-- One iteration of the outer loop of `matchWords` (one transcribed word):
if a best match was found, move it from the unmatched pool to the matched
list and bump the counter. -/
def matchStep (th : ℚ) (st : List JSStr × List JSStr × Nat) (tw : JSStr) :
    List JSStr × List JSStr × Nat :=
  let (matched, unmatched, count) := st
  let (bi, _) := findBestAux tw th unmatched 0 (-1) 0
  if bi = -1 then (matched, unmatched, count)
  else (matched ++ [unmatched.getD bi.toNat []], unmatched.eraseIdx bi.toNat, count + 1)

/-- The outer loop of `matchWords`, over the transcribed words in order. -/
def matchLoop (th : ℚ) (expectedWords : List JSStr) (transcribedWords : List JSStr) :
    List JSStr × List JSStr × Nat :=
  transcribedWords.foldl (matchStep th) ([], expectedWords, 0)

/-- The body of `WordMatchingService.matchWords` shared by both service
variants: extract the Arabic words from both texts, run the greedy loop, then
derive `accuracy` and `perfectMatch`. -/
def matchWordsCore (expectedText transcribedText : JSStr) (similarityThreshold : ℚ) :
    WordMatchResult :=
  let expectedWords := extractWords expectedText
  let transcribedWords := extractWords transcribedText
  let (matched, unmatched, count) := matchLoop similarityThreshold expectedWords transcribedWords
  let totalWords := expectedWords.length
  let accuracy : ℚ := if 0 < totalWords then (count : ℚ) / (totalWords : ℚ) else 0
  let perfect := decide ((9 / 10 : ℚ) ≤ accuracy) && decide ((totalWords : ℚ) * (9 / 10) ≤ (count : ℚ))
  ⟨matched, unmatched, accuracy, count, totalWords, perfect⟩

/-- `WordMatchingService.matchWords` of part_002: no threshold validation. -/
def matchWords002 (expectedText transcribedText : JSStr) (similarityThreshold : ℚ) :
    WordMatchResult :=
  matchWordsCore expectedText transcribedText similarityThreshold

/-- `WordMatchingService.matchWords` of part_003: rejects a threshold outside
`[0, 1]` by throwing, then runs the same body. -/
def matchWords003 (expectedText transcribedText : JSStr) (similarityThreshold : ℚ) :
    Except String WordMatchResult :=
  if similarityThreshold < 0 ∨ 1 < similarityThreshold then
    .error "Similarity threshold must be between 0 and 1"
  else
    .ok (matchWordsCore expectedText transcribedText similarityThreshold)

/-- The per-reference-word `MatchResult` record of the UI component. -/
structure MatchResult where
  expectedWord : JSStr
  bestMatch : JSStr
  ratio : ℚ
  matched : Bool
deriving DecidableEq

/-- The code units of the placeholder string for a missing best match. -/
def notFound : JSStr :=
  [110, 111, 116, 32, 102, 111, 117, 110, 100]

/-- Inner loop of the component-level `matchWords` (reporting view): scan the
whole transcribed word list, keeping `(bestMatch, bestRatio)` (initially
`(notFound, 0)`), updating on `ratio > bestRatio`. -/
def bestForWord (expectedWord : JSStr) : List JSStr → JSStr → ℚ → JSStr × ℚ
  | [], bm, br => (bm, br)
  | tw :: rest, bm, br =>
    let r := calculateSimilarity expectedWord tw
    if br < r then bestForWord expectedWord rest tw r
    else bestForWord expectedWord rest bm br

/-- The component-level `matchWords` of `recitation-checker.tsx` (reporting
view): one record per expected word, in order, each scanning the entire,
unmodified transcribed word list with no threshold; `matched` holds iff the
best ratio is at least `0.6`, and the recorded best match falls back to
`notFound` unless the best ratio is positive.  Returns the records and the
accuracy derived from them.  (The call it makes into the service-level
`matchWords` has its result discarded in the source and is pure, so it is
omitted.) -/
def componentMatchWords (expectedVerse transcription : JSStr) : List MatchResult × ℚ :=
  let expectedWords := extractWords expectedVerse
  let transcribedWords := extractWords transcription
  let results := expectedWords.map (fun ew =>
    let best := bestForWord ew transcribedWords notFound 0
    { expectedWord := ew
      bestMatch := if 0 < best.2 then best.1 else notFound
      ratio := best.2
      matched := decide ((3 / 5 : ℚ) ≤ best.2) })
  let matchedCount := (results.filter (fun r => r.matched)).length
  let totalWords := expectedWords.length
  let accuracy : ℚ := if 0 < totalWords then (matchedCount : ℚ) / (totalWords : ℚ) else 0
  (results, accuracy)

/-- The completion decision of `handleTranscriptionUpdate`: the pair
`(allWordsAboveThreshold, allMatched)` — the "good" and "perfect" completion
tiers.  `verseProgress = min(1, transcribedWords.length / expectedWords.length)`.
(When the verse has no Arabic words the JavaScript quotient is not a number;
the rational model yields `0`.  In both semantics neither tier can fire then,
because `matchResults.length > 0` fails, so the model is faithful on every
input.) -/
def handleUpdateDetection (selectedVerse newTranscription : JSStr) : Bool × Bool :=
  let results := (componentMatchWords selectedVerse newTranscription).1
  let expectedWords := extractWords selectedVerse
  let transcribedWords := extractWords newTranscription
  let verseProgress : ℚ :=
    min 1 ((transcribedWords.length : ℚ) / (expectedWords.length : ℚ))
  let good :=
    decide (0 < results.length) &&
    results.all (fun r => decide ((9 / 20 : ℚ) ≤ r.ratio)) &&
    decide (10 < newTranscription.length) &&
    decide ((9 / 10 : ℚ) ≤ verseProgress)
  let perfect :=
    results.all (fun r => r.matched) &&
    decide (0 < results.length) &&
    decide (10 < newTranscription.length) &&
    decide ((9 / 10 : ℚ) ≤ verseProgress)
  (good, perfect)

/-! ### Specification-side definitions

The following definitions are renderings of the words of the specification, used
only to compare against the source-derived definitions above (refinement
claims), never as models of the source itself. -/

/-- Maximum of a list of rationals (`none` on the empty list). -/
def listMax : List ℚ → Option ℚ
  | [] => none
  | s :: rest =>
    match listMax rest with
    | none => some s
    | some m => some (max s m)

/-- Index of the first occurrence of `x` (length of the list if absent). -/
def firstIdxOf (x : ℚ) : List ℚ → Nat
  | [] => 0
  | s :: rest => if s = x then 0 else firstIdxOf x rest + 1

/-- Spec rendering of the claimed selection rule: "find the pool entry with
the highest similarity to this candidate word that is also ≥ threshold; ties
broken by earliest pool position". -/
def specPickClaim (th : ℚ) (sims : List ℚ) : Option Nat :=
  match listMax (sims.filter (fun s => decide (th ≤ s))) with
  | none => none
  | some m => some (firstIdxOf m sims)

/-- The amended selection rule: the entry must in addition have strictly
positive similarity (forced by the `similarity > bestMatchSimilarity` test of the loop
test against the initial best of `0`). -/
def specPickAmended (th : ℚ) (sims : List ℚ) : Option Nat :=
  match listMax (sims.filter (fun s => decide (th ≤ s ∧ 0 < s))) with
  | none => none
  | some m => some (firstIdxOf m sims)

/-- One greedy step under a given selection rule: consume the selected pool
entry, if any. -/
def specStepWith (pick : ℚ → List ℚ → Option Nat) (th : ℚ)
    (st : List JSStr × List JSStr × Nat) (tw : JSStr) :
    List JSStr × List JSStr × Nat :=
  let (matched, pool, count) := st
  match pick th (pool.map (fun ew => calculateSimilarity ew tw)) with
  | none => (matched, pool, count)
  | some i => (matched ++ [pool.getD i []], pool.eraseIdx i, count + 1)

/-- The greedy consumption loop under the claimed selection rule. -/
def specLoopClaim (th : ℚ) (expectedWords transcribedWords : List JSStr) :
    List JSStr × List JSStr × Nat :=
  transcribedWords.foldl (specStepWith specPickClaim th) ([], expectedWords, 0)

/-- The greedy consumption loop under the amended selection rule. -/
def specLoopAmended (th : ℚ) (expectedWords transcribedWords : List JSStr) :
    List JSStr × List JSStr × Nat :=
  transcribedWords.foldl (specStepWith specPickAmended th) ([], expectedWords, 0)

/-- `EditsTo xs ys n`: `xs` can be transformed into `ys` by `n`
single-character edits (insertions, deletions, substitutions); characters can
also be kept for free.  The minimum such `n` is the notion the specification has of
Levenshtein distance. -/
inductive EditsTo : List Nat → List Nat → Nat → Prop
  | nil : EditsTo [] [] 0
  | keep (c : Nat) {xs ys n} : EditsTo xs ys n → EditsTo (c :: xs) (c :: ys) n
  | subst (c d : Nat) {xs ys n} : EditsTo xs ys n → EditsTo (c :: xs) (d :: ys) (n + 1)
  | delete (c : Nat) {xs ys n} : EditsTo xs ys n → EditsTo (c :: xs) ys (n + 1)
  | insert (d : Nat) {xs ys n} : EditsTo xs ys n → EditsTo xs (d :: ys) (n + 1)

/-! ### Auxiliary definitions used by the proofs -/

/-- `findBestAux` transported to the list of similarity values. -/
def pickBest (th : ℚ) : List ℚ → Nat → Int → ℚ → Int × ℚ
  | [], _, bi, bs => (bi, bs)
  | s :: rest, i, bi, bs =>
    if bs < s ∧ th ≤ s then pickBest th rest (i + 1) (i : Int) s
    else pickBest th rest (i + 1) bi bs

/-- Position and value of the first entry attaining the maximum among the
entries that are `≥ th` and `> bs` (`none` when there is no such entry). -/
def bestAbove (th : ℚ) (bs : ℚ) : List ℚ → Option (Nat × ℚ)
  | [] => none
  | s :: rest =>
    if bs < s ∧ th ≤ s then
      match bestAbove th s rest with
      | none => some (0, s)
      | some jm => some (jm.1 + 1, jm.2)
    else
      match bestAbove th bs rest with
      | none => none
      | some jm => some (jm.1 + 1, jm.2)

/-- The intended contents of a Levenshtein dynamic-programming row, expressed
through reversed prefixes: with `rb` the reversed consumed prefix of `b` and
`ra` the reversed consumed prefix of `a`, the row lists
`lev rb ra, lev rb (a₁ :: ra), lev rb (a₂ :: a₁ :: ra), ...` for the remaining
characters of `a`. -/
def rowSpec (rb : List Nat) : List Nat → List Nat → List Nat
  | ra, [] => [lev rb ra]
  | ra, ac :: as_ => lev rb ra :: rowSpec rb (ac :: ra) as_

/-! ### Basic facts about the reference Levenshtein distance -/

theorem lev_nil_left (ys : List Nat) : lev [] ys = ys.length := by
  simp [lev]

theorem lev_nil_right (xs : List Nat) : lev xs [] = xs.length := by
  cases xs <;> simp [lev]

theorem lev_cons_cons (x y : Nat) (xs ys : List Nat) :
    lev (x :: xs) (y :: ys) =
      if x = y then lev xs ys
      else 1 + min (lev xs ys) (min (lev (x :: xs) ys) (lev xs (y :: ys))) := by
  simp [lev]

theorem lev_self (xs : List Nat) : lev xs xs = 0 := by
  induction xs with
  | nil => simp [lev]
  | cons x xs ih => rw [lev_cons_cons]; simp [ih]

theorem lev_symm (xs ys : List Nat) : lev xs ys = lev ys xs := by
  suffices H : ∀ (n : Nat) (xs ys : List Nat), xs.length + ys.length ≤ n →
      lev xs ys = lev ys xs from
    H (xs.length + ys.length) xs ys le_rfl
  intro n
  induction n with
  | zero =>
    intro xs ys h
    rw [Nat.le_zero, Nat.add_eq_zero, List.length_eq_zero, List.length_eq_zero] at h
    rw [h.1, h.2]
  | succ n ih =>
    intro xs ys h
    match xs, ys with
    | [], ys => rw [lev_nil_left, lev_nil_right]
    | x :: xs, [] => rw [lev_nil_left, lev_nil_right]
    | x :: xs, y :: ys =>
      simp only [List.length_cons] at h
      rw [lev_cons_cons, lev_cons_cons]
      rcases eq_or_ne x y with rfl | hne
      · rw [if_pos rfl, if_pos rfl, ih xs ys (by omega)]
      · rw [if_neg hne, if_neg (Ne.symm hne)]
        have h1 := ih xs ys (by omega)
        have h2 := ih (x :: xs) ys (by simp only [List.length_cons]; omega)
        have h3 := ih xs (y :: ys) (by simp only [List.length_cons]; omega)
        omega

theorem lev_le_max (xs ys : List Nat) : lev xs ys ≤ max xs.length ys.length := by
  suffices H : ∀ (n : Nat) (xs ys : List Nat), xs.length + ys.length ≤ n →
      lev xs ys ≤ max xs.length ys.length from
    H (xs.length + ys.length) xs ys le_rfl
  intro n
  induction n with
  | zero =>
    intro xs ys h
    rw [Nat.le_zero, Nat.add_eq_zero, List.length_eq_zero, List.length_eq_zero] at h
    rw [h.1, h.2]
    simp [lev]
  | succ n ih =>
    intro xs ys h
    match xs, ys with
    | [], ys => simp [lev_nil_left]
    | x :: xs, [] => simp [lev_nil_right]
    | x :: xs, y :: ys =>
      simp only [List.length_cons] at h ⊢
      rw [lev_cons_cons]
      rcases eq_or_ne x y with rfl | hne
      · rw [if_pos rfl]
        have := ih xs ys (by omega)
        omega
      · rw [if_neg hne]
        have := ih xs ys (by omega)
        omega

theorem lev_cons_bounds :
    ∀ n xs ys, xs.length + ys.length ≤ n →
      (∀ x : Nat, lev (x :: xs) ys ≤ lev xs ys + 1) ∧
      (∀ x : Nat, lev xs ys ≤ lev (x :: xs) ys + 1) := by
  intro n
  induction n with
  | zero =>
    intro xs ys h
    rw [Nat.le_zero, Nat.add_eq_zero, List.length_eq_zero, List.length_eq_zero] at h
    rw [h.1, h.2]
    constructor <;> intro x <;> simp [lev_nil_right]
  | succ n ih =>
    intro xs ys h
    have B : ∀ xs ys : List Nat, xs.length + ys.length ≤ n →
        (∀ y : Nat, lev xs (y :: ys) ≤ lev xs ys + 1) ∧
        (∀ y : Nat, lev xs ys ≤ lev xs (y :: ys) + 1) := by
      intro xs ys hl
      have hy := ih ys xs (by omega)
      refine ⟨fun y => ?_, fun y => ?_⟩
      · rw [lev_symm xs (y :: ys), lev_symm xs ys]; exact hy.1 y
      · rw [lev_symm xs (y :: ys), lev_symm xs ys]; exact hy.2 y
    constructor
    · intro x
      match ys with
      | [] => simp [lev_nil_right]
      | y :: ys' =>
        simp only [List.length_cons] at h
        rw [lev_cons_cons]
        rcases eq_or_ne x y with rfl | hne
        · rw [if_pos rfl]
          exact (B xs ys' (by omega)).2 x
        · rw [if_neg hne]
          omega
    · intro x
      match ys with
      | [] => simp [lev_nil_right]; omega
      | y :: ys' =>
        simp only [List.length_cons] at h
        rw [lev_cons_cons]
        rcases eq_or_ne x y with rfl | hne
        · rw [if_pos rfl]
          exact (B xs ys' (by omega)).1 x
        · rw [if_neg hne]
          have hBC := (B xs ys' (by omega)).1 y
          have hA2 := (ih xs ys' (by omega)).2 x
          omega

theorem lev_cons_left_le (x : Nat) (xs ys : List Nat) : lev (x :: xs) ys ≤ lev xs ys + 1 :=
  (lev_cons_bounds (xs.length + ys.length) xs ys le_rfl).1 x

theorem lev_le_cons_left (x : Nat) (xs ys : List Nat) : lev xs ys ≤ lev (x :: xs) ys + 1 :=
  (lev_cons_bounds (xs.length + ys.length) xs ys le_rfl).2 x

theorem lev_cons_right_le (y : Nat) (xs ys : List Nat) : lev xs (y :: ys) ≤ lev xs ys + 1 := by
  rw [lev_symm xs (y :: ys), lev_symm xs ys]
  exact lev_cons_left_le y ys xs

theorem lev_le_cons_right (y : Nat) (xs ys : List Nat) : lev xs ys ≤ lev xs (y :: ys) + 1 := by
  rw [lev_symm xs (y :: ys), lev_symm xs ys]
  exact lev_le_cons_left y ys xs

/-! ### Edit scripts: `lev` is the least number of edits -/

theorem editsTo_nil_l : ∀ ys : List Nat, EditsTo [] ys ys.length
  | [] => .nil
  | y :: ys => .insert y (editsTo_nil_l ys)

theorem editsTo_nil_r : ∀ xs : List Nat, EditsTo xs [] xs.length
  | [] => .nil
  | x :: xs => .delete x (editsTo_nil_r xs)

theorem editsTo_lev_le {xs ys : List Nat} {n : Nat} (h : EditsTo xs ys n) : lev xs ys ≤ n := by
  induction h with
  | nil => simp [lev]
  | keep c _ ih => rw [lev_cons_cons]; simpa using ih
  | subst c d _ ih =>
    rw [lev_cons_cons]
    rcases eq_or_ne c d with rfl | hne
    · rw [if_pos rfl]; omega
    · rw [if_neg hne]; omega
  | delete c _ ih =>
    exact le_trans (lev_cons_left_le c _ _) (by omega)
  | insert d _ ih =>
    exact le_trans (lev_cons_right_le d _ _) (by omega)

theorem editsTo_lev : ∀ xs ys : List Nat, EditsTo xs ys (lev xs ys) := by
  suffices H : ∀ (n : Nat) (xs ys : List Nat), xs.length + ys.length ≤ n →
      EditsTo xs ys (lev xs ys) from
    fun xs ys => H (xs.length + ys.length) xs ys le_rfl
  intro n
  induction n with
  | zero =>
    intro xs ys h
    rw [Nat.le_zero, Nat.add_eq_zero, List.length_eq_zero, List.length_eq_zero] at h
    rw [h.1, h.2]
    simpa [lev] using EditsTo.nil
  | succ n ih =>
    intro xs ys h
    match xs, ys with
    | [], ys => rw [lev_nil_left]; exact editsTo_nil_l ys
    | x :: xs, [] => rw [lev_nil_right]; exact editsTo_nil_r _
    | x :: xs, y :: ys =>
      simp only [List.length_cons] at h
      rw [lev_cons_cons]
      rcases eq_or_ne x y with rfl | hne
      · rw [if_pos rfl]
        exact .keep x (ih xs ys (by omega))
      · rw [if_neg hne]
        have hcase : min (lev xs ys) (min (lev (x :: xs) ys) (lev xs (y :: ys))) = lev xs ys ∨
            min (lev xs ys) (min (lev (x :: xs) ys) (lev xs (y :: ys))) = lev (x :: xs) ys ∨
            min (lev xs ys) (min (lev (x :: xs) ys) (lev xs (y :: ys))) = lev xs (y :: ys) := by
          omega
        rcases hcase with hc | hc | hc <;> rw [hc, Nat.add_comm]
        · exact .subst x y (ih xs ys (by omega))
        · exact .insert y (ih (x :: xs) ys (by simp only [List.length_cons]; omega))
        · exact .delete x (ih xs (y :: ys) (by simp only [List.length_cons]; omega))

theorem editsTo_append {as bs cs ds : List Nat} {n m : Nat}
    (h1 : EditsTo as bs n) (h2 : EditsTo cs ds m) : EditsTo (as ++ cs) (bs ++ ds) (n + m) := by
  induction h1 with
  | nil => simpa using h2
  | keep c _ ih => simpa only [List.cons_append] using EditsTo.keep c ih
  | subst c d _ ih =>
    simp only [List.cons_append]
    have := EditsTo.subst c d ih
    rwa [Nat.add_right_comm] at this
  | delete c _ ih =>
    simp only [List.cons_append]
    have := EditsTo.delete c ih
    rwa [Nat.add_right_comm] at this
  | insert d _ ih =>
    simp only [List.cons_append]
    have := EditsTo.insert d ih
    rwa [Nat.add_right_comm] at this

theorem editsTo_reverse {xs ys : List Nat} {n : Nat} (h : EditsTo xs ys n) :
    EditsTo xs.reverse ys.reverse n := by
  induction h with
  | nil => exact .nil
  | keep c _ ih =>
    simpa using editsTo_append ih (EditsTo.keep c .nil)
  | subst c d _ ih =>
    simpa using editsTo_append ih (EditsTo.subst c d .nil)
  | delete c _ ih =>
    simpa using editsTo_append ih (EditsTo.delete c .nil)
  | insert d _ ih =>
    simpa using editsTo_append ih (EditsTo.insert d .nil)

theorem lev_reverse (xs ys : List Nat) : lev xs.reverse ys.reverse = lev xs ys := by
  apply le_antisymm
  · exact editsTo_lev_le (editsTo_reverse (editsTo_lev xs ys))
  · simpa using editsTo_lev_le (editsTo_reverse (editsTo_lev xs.reverse ys.reverse))

/-! ### The two dynamic-programming implementations compute `lev` -/

theorem dpCell3 (rb ra : List Nat) (bc ac : Nat) :
    min (lev rb ra + levCost bc ac) (min (lev rb (ac :: ra) + 1) (lev (bc :: rb) ra + 1)) =
      lev (bc :: rb) (ac :: ra) := by
  have hB := lev_le_cons_right ac rb ra
  have hA := lev_le_cons_left bc rb ra
  rw [lev_cons_cons, levCost]
  rcases eq_or_ne bc ac with rfl | hne
  · rw [if_pos rfl, if_pos rfl]
    omega
  · rw [if_neg hne, if_neg hne]
    omega

theorem dpCell2 (rb ra : List Nat) (bc ac : Nat) :
    (if bc = ac then lev rb ra
     else min (lev rb ra + 1) (min (lev (bc :: rb) ra + 1) (lev rb (ac :: ra) + 1))) =
      lev (bc :: rb) (ac :: ra) := by
  rw [lev_cons_cons]
  rcases eq_or_ne bc ac with rfl | hne
  · rw [if_pos rfl, if_pos rfl]
  · rw [if_neg hne, if_neg hne]
    omega

theorem rowRest3_spec (bc : Nat) (rb : List Nat) :
    ∀ (as_ : List Nat) (ac : Nat) (ra : List Nat),
      rowRest3 bc (ac :: as_) (lev (bc :: rb) ra) (lev rb ra) (rowSpec rb (ac :: ra) as_) =
        rowSpec (bc :: rb) (ac :: ra) as_ := by
  intro as_
  induction as_ with
  | nil =>
    intro ac ra
    simp only [rowSpec, rowRest3]
    rw [dpCell3]
  | cons ac2 as2 ih =>
    intro ac ra
    simp only [rowSpec, rowRest3]
    rw [dpCell3, ih ac2 (ac :: ra)]

theorem rowRest2_spec (bc : Nat) (rb : List Nat) :
    ∀ (as_ : List Nat) (ac : Nat) (ra : List Nat),
      rowRest2 bc (ac :: as_) (lev (bc :: rb) ra) (lev rb ra) (rowSpec rb (ac :: ra) as_) =
        rowSpec (bc :: rb) (ac :: ra) as_ := by
  intro as_
  induction as_ with
  | nil =>
    intro ac ra
    simp only [rowSpec, rowRest2]
    rw [dpCell2]
  | cons ac2 as2 ih =>
    intro ac ra
    simp only [rowSpec, rowRest2]
    rw [dpCell2, ih ac2 (ac :: ra)]

theorem nextRow3_spec (a rb : List Nat) (bc : Nat) :
    nextRow3 a bc (rb.length + 1) (rowSpec rb [] a) = rowSpec (bc :: rb) [] a := by
  have hnil : lev (bc :: rb) [] = rb.length + 1 := by
    rw [lev_nil_right, List.length_cons]
  cases a with
  | nil =>
    simp only [rowSpec, nextRow3, rowRest3]
    rw [← hnil]
  | cons ac as_ =>
    simp only [rowSpec, nextRow3]
    rw [← hnil, rowRest3_spec bc rb as_ ac []]

theorem nextRow2_spec (a rb : List Nat) (bc : Nat) :
    nextRow2 a bc (rb.length + 1) (rowSpec rb [] a) = rowSpec (bc :: rb) [] a := by
  have hnil : lev (bc :: rb) [] = rb.length + 1 := by
    rw [lev_nil_right, List.length_cons]
  cases a with
  | nil =>
    simp only [rowSpec, nextRow2, rowRest2]
    rw [← hnil]
  | cons ac as_ =>
    simp only [rowSpec, nextRow2]
    rw [← hnil, rowRest2_spec bc rb as_ ac []]

theorem rows3_spec (a : List Nat) :
    ∀ (bs rb : List Nat),
      rows3 a bs (rb.length + 1) (rowSpec rb [] a) = rowSpec (bs.reverse ++ rb) [] a := by
  intro bs
  induction bs with
  | nil => intro rb; simp [rows3]
  | cons bc bs ih =>
    intro rb
    simp only [rows3]
    rw [nextRow3_spec a rb bc]
    have h := ih (bc :: rb)
    simp only [List.length_cons] at h
    rw [h]
    simp [List.append_assoc]

theorem rows2_spec (a : List Nat) :
    ∀ (bs rb : List Nat),
      rows2 a bs (rb.length + 1) (rowSpec rb [] a) = rowSpec (bs.reverse ++ rb) [] a := by
  intro bs
  induction bs with
  | nil => intro rb; simp [rows2]
  | cons bc bs ih =>
    intro rb
    simp only [rows2]
    rw [nextRow2_spec a rb bc]
    have h := ih (bc :: rb)
    simp only [List.length_cons] at h
    rw [h]
    simp [List.append_assoc]

theorem rowSpec_getD_last :
    ∀ (as_ ra rb : List Nat), (rowSpec rb ra as_).getD as_.length 0 = lev rb (as_.reverse ++ ra) := by
  intro as_
  induction as_ with
  | nil => intro ra rb; simp [rowSpec]
  | cons ac as_ ih =>
    intro ra rb
    simp only [rowSpec, List.length_cons, List.getD_cons_succ]
    rw [ih (ac :: ra) rb]
    simp [List.append_assoc]

theorem rowSpec_range :
    ∀ (as_ ra : List Nat), rowSpec [] ra as_ = List.range' ra.length (as_.length + 1) := by
  intro as_
  induction as_ with
  | nil =>
    intro ra
    simp [rowSpec, lev_nil_left, List.range']
  | cons ac as_ ih =>
    intro ra
    simp only [rowSpec, lev_nil_left, List.length_cons]
    have h := ih (ac :: ra)
    simp only [List.length_cons] at h
    rw [h]
    simp [List.range'_succ]

theorem levenshteinDistance3_eq_lev (a b : List Nat) : levenshteinDistance3 a b = lev a b := by
  unfold levenshteinDistance3
  split_ifs with h1 h2
  · rw [List.length_eq_zero] at h1
    rw [h1, lev_nil_left]
  · rw [List.length_eq_zero] at h2
    rw [h2, lev_nil_right]
  · have h0 : List.range (a.length + 1) = rowSpec [] [] a := by
      rw [rowSpec_range a [], List.range_eq_range']
      rfl
    rw [h0]
    have hr := rows3_spec a b []
    simp only [List.length_nil, List.append_nil] at hr
    rw [hr, rowSpec_getD_last a [] b.reverse]
    simp only [List.append_nil]
    rw [lev_reverse b a, lev_symm b a]

theorem levenshteinDistance2_eq_lev (a b : List Nat) : levenshteinDistance2 a b = lev a b := by
  unfold levenshteinDistance2
  have h0 : List.range (a.length + 1) = rowSpec [] [] a := by
    rw [rowSpec_range a [], List.range_eq_range']
    rfl
  rw [h0]
  have hr := rows2_spec a b []
  simp only [List.length_nil, List.append_nil] at hr
  rw [hr, rowSpec_getD_last a [] b.reverse]
  simp only [List.append_nil]
  rw [lev_reverse b a, lev_symm b a]

/-- **C8.** The two Levenshtein implementations are equivalent: for every pair
of strings, the full-matrix `levenshteinDistance` (part_002) and the
two-rolling-row `levenshteinDistance` (part_003) return the same value, and
that value is the minimum number of single-character insertions, deletions, or
substitutions transforming the first string into the second (hence
`distance(a, a) = 0` and `distance(a, "") = |a|`). -/
theorem levenshtein_equiv_minimal (a b : List Nat) :
    levenshteinDistance2 a b = levenshteinDistance3 a b ∧
    EditsTo a b (levenshteinDistance3 a b) ∧
    (∀ n, EditsTo a b n → levenshteinDistance3 a b ≤ n) ∧
    levenshteinDistance3 a a = 0 ∧
    levenshteinDistance3 a [] = a.length := by
  rw [levenshteinDistance2_eq_lev a b, levenshteinDistance3_eq_lev a b,
    levenshteinDistance3_eq_lev a a, levenshteinDistance3_eq_lev a []]
  exact ⟨rfl, editsTo_lev a b, fun n h => editsTo_lev_le h, lev_self a, lev_nil_right a⟩

/-- Witness for **C8**: the minimality clause applied to a concrete one-edit
script. -/
theorem levenshtein_equiv_minimal_witness :
    EditsTo [1] [2] 1 ∧ levenshteinDistance3 [1] [2] ≤ 1 :=
  have hed : EditsTo [1] [2] 1 := EditsTo.subst 1 2 EditsTo.nil
  ⟨hed, (levenshtein_equiv_minimal [1] [2]).2.2.1 1 hed⟩

/-! ### Normalization -/

theorem normChar_fix (c : Nat) (h : isHarakat c = false) :
    isHarakat (foldYaChar (foldAlifChar c)) = false ∧
    foldAlifChar (foldYaChar (foldAlifChar c)) = foldYaChar (foldAlifChar c) ∧
    foldYaChar (foldYaChar (foldAlifChar c)) = foldYaChar (foldAlifChar c) := by
  simp only [isHarakat, decide_eq_false_iff_not] at h
  refine ⟨?_, ?_, ?_⟩ <;>
    · simp only [foldAlifChar, foldYaChar, isHarakat, decide_eq_false_iff_not]
      split_ifs <;> omega

theorem normalizeArabic_chars {c : Nat} {t : JSStr} (hc : c ∈ normalizeArabic t) :
    isHarakat c = false ∧ foldAlifChar c = c ∧ foldYaChar c = c := by
  simp only [normalizeArabic, foldYa, foldAlif, removeDiacritics, List.mem_map,
    List.mem_filter] at hc
  obtain ⟨b, ⟨a, ⟨_, hh⟩, rfl⟩, rfl⟩ := hc
  exact normChar_fix a (by simpa using hh)

theorem normalizeArabic_fixed {t : JSStr}
    (h : ∀ c ∈ t, isHarakat c = false ∧ foldAlifChar c = c ∧ foldYaChar c = c) :
    normalizeArabic t = t := by
  induction t with
  | nil => rfl
  | cons c cs ih =>
    have hc := h c (List.mem_cons_self c cs)
    have hcs := ih (fun x hx => h x (List.mem_cons_of_mem c hx))
    simp only [normalizeArabic, removeDiacritics, foldAlif, foldYa] at hcs ⊢
    simp [List.filter_cons, hc.1, hc.2.1, hc.2.2, hcs]

/-- **C9.** `normalizeArabic` is a total, deterministic, pure function that is
idempotent, and the empty string normalizes to the empty string. -/
theorem normalizeArabic_idempotent (w : JSStr) :
    normalizeArabic (normalizeArabic w) = normalizeArabic w ∧
    normalizeArabic ([] : JSStr) = [] :=
  ⟨normalizeArabic_fixed (fun _ hc => normalizeArabic_chars hc), rfl⟩

/-! ### Similarity on empty and normalized-empty words -/

/-- **C5** counterexample: the claim says `calculateSimilarity` returns `0.0`
whenever either word is empty, and in particular on the pair of empty strings;
but the raw-equality check runs first, so the pair of empty strings yields
`1.0`. -/
theorem calculateSimilarity_empty_counterexample :
    calculateSimilarity [] [] = 1 ∧ (1 : ℚ) ≠ 0 :=
  ⟨rfl, by norm_num⟩

/-- **C5** amended: if one of the words is empty and the words are distinct,
`calculateSimilarity` returns `0.0`; on the pair of empty strings the
raw-equality branch fires first and returns `1.0`. -/
theorem calculateSimilarity_empty_amended (a b : JSStr) (h : a = [] ∨ b = []) :
    calculateSimilarity a b = if a = b then 1 else 0 := by
  rcases eq_or_ne a b with rfl | hne
  · rw [if_pos rfl]
    unfold calculateSimilarity
    rw [if_pos rfl]
  · have hlen : a.length = 0 ∨ b.length = 0 := by
      rcases h with rfl | rfl
      · exact Or.inl rfl
      · exact Or.inr rfl
    rw [if_neg hne]
    unfold calculateSimilarity
    rw [if_neg hne, if_pos hlen]

/-- Witness for **C5** (amended): a concrete empty/non-empty pair and the
empty/empty pair. -/
theorem calculateSimilarity_empty_amended_witness :
    calculateSimilarity [] [0x628] = 0 ∧ calculateSimilarity [] [] = 1 := by
  constructor
  · simpa using calculateSimilarity_empty_amended [] [0x628] (Or.inl rfl)
  · simpa using calculateSimilarity_empty_amended [] [] (Or.inl rfl)

/-- **C6** counterexample: two distinct non-empty words made only of harakat
both normalize to the empty string, and `calculateSimilarity` returns `0.9`
on them, not `0`: the normalized-equality branch precedes the
`maxLength > 0` guard, which is unreachable. -/
theorem calculateSimilarity_bothEmpty_counterexample :
    calculateSimilarity [0x64B] [0x64C] = 9 / 10 ∧
    normalizeArabic [0x64B] = [] ∧ normalizeArabic [0x64C] = [] ∧
    ([0x64B] : JSStr) ≠ [0x64C] ∧ (9 / 10 : ℚ) ≠ 0 := by
  refine ⟨rfl, rfl, rfl, by decide, by norm_num⟩

/-- **C6** amended: for distinct non-empty words whose normalized forms are
both empty, `calculateSimilarity` returns `0.9` (the normalized-equality
branch), not `0`. -/
theorem calculateSimilarity_bothEmpty_amended (w1 w2 : JSStr) (h : w1 ≠ w2)
    (h1 : w1 ≠ []) (h2 : w2 ≠ []) (hn1 : normalizeArabic w1 = [])
    (hn2 : normalizeArabic w2 = []) :
    calculateSimilarity w1 w2 = 9 / 10 := by
  unfold calculateSimilarity
  rw [if_neg h, if_neg (by simp [List.length_eq_zero, h1, h2])]
  simp [hn1, hn2]

/-- Witness for **C6** (amended): the concrete harakat-only pair. -/
theorem calculateSimilarity_bothEmpty_amended_witness :
    calculateSimilarity [0x64B] [0x64C] = 9 / 10 :=
  calculateSimilarity_bothEmpty_amended [0x64B] [0x64C] (by decide) (by decide) (by decide)
    rfl rfl

/-! ### Threshold validation -/

/-- **C2** counterexample: the part_002 `matchWords` performs no threshold
validation, so with the out-of-range threshold `1.5` it still returns a
`WordMatchResult` instead of signaling a configuration error. -/
theorem matchWords_threshold_claim_counterexample :
    matchWords002 [] [] (3 / 2) = ⟨[], [], 0, 0, 0, false⟩ ∧ (1 : ℚ) < 3 / 2 :=
  ⟨by simp [matchWords002, matchWordsCore, matchLoop, extractWords, extractWordsAux], by norm_num⟩

/-- **C2** amended: the part_003 `matchWords` throws on every threshold
outside `[0, 1]` and otherwise returns the ordinary result, while the
part_002 `matchWords` performs no validation at all and always returns a
`WordMatchResult` (the threshold is never clamped in either variant). -/
theorem matchWords_threshold_amended (e t : JSStr) (th : ℚ) :
    (th < 0 ∨ 1 < th →
      matchWords003 e t th = Except.error "Similarity threshold must be between 0 and 1") ∧
    (¬(th < 0 ∨ 1 < th) → matchWords003 e t th = Except.ok (matchWordsCore e t th)) ∧
    matchWords002 e t th = matchWordsCore e t th := by
  refine ⟨fun h => ?_, fun h => ?_, rfl⟩
  · unfold matchWords003
    rw [if_pos h]
  · unfold matchWords003
    rw [if_neg h]

/-- Witness for **C2** (amended): threshold `1.5` raises; threshold `0.7`
returns a result. -/
theorem matchWords_threshold_amended_witness :
    matchWords003 [] [] (3 / 2) = Except.error "Similarity threshold must be between 0 and 1" ∧
    matchWords003 [] [] (7 / 10) = Except.ok (matchWordsCore [] [] (7 / 10)) :=
  ⟨(matchWords_threshold_amended [] [] (3 / 2)).1 (by norm_num),
   (matchWords_threshold_amended [] [] (7 / 10)).2.1 (by norm_num)⟩

/-! ### The consuming `matchWords`: accuracy fields and invariants -/

theorem matchWordsCore_fields (e t : JSStr) (th : ℚ) :
    matchWordsCore e t th =
      { matchedWords := (matchLoop th (extractWords e) (extractWords t)).1
        unmatchedWords := (matchLoop th (extractWords e) (extractWords t)).2.1
        accuracy := if 0 < (extractWords e).length then
            ((matchLoop th (extractWords e) (extractWords t)).2.2 : ℚ) /
              ((extractWords e).length : ℚ)
          else 0
        matchedCount := (matchLoop th (extractWords e) (extractWords t)).2.2
        totalWords := (extractWords e).length
        perfectMatch :=
          decide ((9 / 10 : ℚ) ≤ (if 0 < (extractWords e).length then
              ((matchLoop th (extractWords e) (extractWords t)).2.2 : ℚ) /
                ((extractWords e).length : ℚ)
            else 0)) &&
          decide (((extractWords e).length : ℚ) * (9 / 10) ≤
            ((matchLoop th (extractWords e) (extractWords t)).2.2 : ℚ)) } :=
  rfl

theorem matchLoop_nil_pool (th : ℚ) (tws : List JSStr) :
    matchLoop th [] tws = ([], [], 0) := by
  unfold matchLoop
  induction tws with
  | nil => rfl
  | cons tw tws ih =>
    rw [List.foldl_cons, show matchStep th ([], [], 0) tw = ([], [], 0) from rfl]
    exact ih

/-- **C7.** For every `matchWords` result: accuracy equals
`matchedCount / totalWords` when `totalWords > 0` and `0` when
`totalWords = 0`, and `perfectMatch` holds iff `accuracy ≥ 0.9` and
`matchedCount ≥ 0.9 × totalWords`; with zero reference words
`matchedCount = 0`, `perfectMatch = false` and `accuracy = 0`, and with zero
candidate words all reference words are unmatched and `accuracy = 0`. -/
theorem matchWords_accuracy_perfectMatch (e t : JSStr) (th : ℚ) :
    ((matchWordsCore e t th).accuracy =
      if 0 < (matchWordsCore e t th).totalWords then
        ((matchWordsCore e t th).matchedCount : ℚ) / ((matchWordsCore e t th).totalWords : ℚ)
      else 0) ∧
    ((matchWordsCore e t th).perfectMatch = true ↔
      (9 / 10 : ℚ) ≤ (matchWordsCore e t th).accuracy ∧
      ((matchWordsCore e t th).totalWords : ℚ) * (9 / 10) ≤
        ((matchWordsCore e t th).matchedCount : ℚ)) ∧
    (extractWords e = [] →
      (matchWordsCore e t th).matchedCount = 0 ∧
      (matchWordsCore e t th).perfectMatch = false ∧
      (matchWordsCore e t th).accuracy = 0) ∧
    (extractWords t = [] →
      (matchWordsCore e t th).unmatchedWords = extractWords e ∧
      (matchWordsCore e t th).accuracy = 0 ∧
      (matchWordsCore e t th).matchedCount = 0) := by
  refine ⟨rfl, ?_, ?_, ?_⟩
  · rw [matchWordsCore_fields]
    simp [Bool.and_eq_true, decide_eq_true_iff]
  · intro he
    rw [matchWordsCore_fields, he, matchLoop_nil_pool]
    have h910 : ¬((9 / 10 : ℚ) ≤ 0) := by norm_num
    simp [h910]
  · intro ht
    rw [matchWordsCore_fields, ht]
    have hloop : matchLoop th (extractWords e) [] = ([], extractWords e, 0) := rfl
    rw [hloop]
    refine ⟨rfl, ?_, rfl⟩
    simp only [Nat.cast_zero, zero_div]
    split_ifs <;> rfl

/-- Witness for **C7**: the zero-reference and zero-candidate clauses at the
empty texts. -/
theorem matchWords_accuracy_perfectMatch_witness :
    (matchWordsCore [] [] (7 / 10)).matchedCount = 0 ∧
    (matchWordsCore [] [] (7 / 10)).perfectMatch = false ∧
    (matchWordsCore [] [] (7 / 10)).accuracy = 0 :=
  (matchWords_accuracy_perfectMatch [] [] (7 / 10)).2.2.1 rfl

theorem findBestAux_fst (tw : JSStr) (th : ℚ) :
    ∀ (pool : List JSStr) (i : Nat) (bi : Int) (bs : ℚ),
      (findBestAux tw th pool i bi bs).1 = bi ∨
      ∃ j, j < pool.length ∧ (findBestAux tw th pool i bi bs).1 = (i : Int) + (j : Int) := by
  intro pool
  induction pool with
  | nil => intro i bi bs; exact Or.inl rfl
  | cons ew rest ih =>
    intro i bi bs
    simp only [findBestAux]
    split_ifs with hcond
    · rcases ih (i + 1) (i : Int) (calculateSimilarity ew tw) with h | ⟨j, hj, h⟩
      · right
        exact ⟨0, by simp, by rw [h]; simp⟩
      · right
        refine ⟨j + 1, by simp only [List.length_cons]; omega, ?_⟩
        rw [h]
        push_cast
        ring
    · rcases ih (i + 1) bi bs with h | ⟨j, hj, h⟩
      · exact Or.inl h
      · right
        refine ⟨j + 1, by simp only [List.length_cons]; omega, ?_⟩
        rw [h]
        push_cast
        ring

theorem getD_cons_eraseIdx_perm :
    ∀ (l : List JSStr) (i : Nat), i < l.length → (l.getD i [] :: l.eraseIdx i).Perm l := by
  intro l
  induction l with
  | nil => intro i h; simp at h
  | cons x xs ih =>
    intro i h
    cases i with
    | zero => simp [List.eraseIdx]
    | succ i =>
      simp only [List.getD_cons_succ, List.eraseIdx_cons_succ]
      have hp := ih i (by simp only [List.length_cons] at h; omega)
      exact (List.Perm.swap x _ _).trans (hp.cons x)

theorem matchStep_invariant (th : ℚ) (pool : List JSStr) (tw : JSStr)
    (st : List JSStr × List JSStr × Nat)
    (h : (st.1 ++ st.2.1).Perm pool ∧ st.2.2 = st.1.length) :
    ((matchStep th st tw).1 ++ (matchStep th st tw).2.1).Perm pool ∧
      (matchStep th st tw).2.2 = (matchStep th st tw).1.length := by
  obtain ⟨m, u, c⟩ := st
  simp only [matchStep]
  rcases findBestAux_fst tw th u 0 (-1) 0 with hfst | ⟨j, hj, hfst⟩
  · rw [hfst]
    simpa using h
  · rw [hfst]
    simp only [Nat.cast_zero, zero_add]
    have hjz : ¬((j : Int) = -1) := by omega
    rw [if_neg hjz]
    have hjn : ((j : Int)).toNat = j := by omega
    rw [hjn]
    simp only at h
    constructor
    · refine List.Perm.trans ?_ h.1
      have hperm := (getD_cons_eraseIdx_perm u j hj).append_left m
      simpa using hperm
    · simp [h.2]

theorem matchLoop_invariant (th : ℚ) (pool : List JSStr) :
    ∀ (tws : List JSStr) (st : List JSStr × List JSStr × Nat),
      (st.1 ++ st.2.1).Perm pool ∧ st.2.2 = st.1.length →
      ((tws.foldl (matchStep th) st).1 ++ (tws.foldl (matchStep th) st).2.1).Perm pool ∧
        (tws.foldl (matchStep th) st).2.2 = (tws.foldl (matchStep th) st).1.length := by
  intro tws
  induction tws with
  | nil => intro st h; exact h
  | cons tw tws ih =>
    intro st h
    rw [List.foldl_cons]
    exact ih (matchStep th st tw) (matchStep_invariant th pool tw st h)

theorem matchStep_count_le (th : ℚ) (tw : JSStr) (st : List JSStr × List JSStr × Nat) :
    (matchStep th st tw).2.2 ≤ st.2.2 + 1 := by
  obtain ⟨m, u, c⟩ := st
  simp only [matchStep]
  split_ifs <;> simp

/-- **C3.** For every reference sequence, candidate sequence and threshold,
the `matchWords` result satisfies: every reference word occurrence appears in
exactly one of `matchedWords` and `unmatchedWords` (the concatenation is a
permutation of the extracted reference words),
`matchedCount + |unmatchedWords| = |reference| = totalWords`, and each
candidate word is consumed by at most one reference word: appending a single
candidate occurrence raises `matchedCount` by at most one. -/
theorem matchWords_partition_invariants (e t : JSStr) (th : ℚ) :
    ((matchWordsCore e t th).matchedWords ++ (matchWordsCore e t th).unmatchedWords).Perm
      (extractWords e) ∧
    (matchWordsCore e t th).matchedCount + (matchWordsCore e t th).unmatchedWords.length =
      (extractWords e).length ∧
    (matchWordsCore e t th).totalWords = (extractWords e).length ∧
    (∀ ts c, (matchLoop th (extractWords e) (ts ++ [c])).2.2 ≤
      (matchLoop th (extractWords e) ts).2.2 + 1) := by
  have hinv := matchLoop_invariant th (extractWords e) (extractWords t)
    ([], extractWords e, 0) (by simp)
  rw [matchWordsCore_fields]
  refine ⟨hinv.1, ?_, rfl, ?_⟩
  · have hlen := hinv.1.length_eq
    simp only [List.length_append] at hlen
    have hc := hinv.2
    unfold matchLoop
    dsimp only
    omega
  · intro ts c
    unfold matchLoop
    rw [List.foldl_append, List.foldl_cons, List.foldl_nil]
    exact matchStep_count_le th c _

/-! ### The greedy selection rule -/

theorem findBestAux_eq_pickBest (tw : JSStr) (th : ℚ) :
    ∀ (pool : List JSStr) (i : Nat) (bi : Int) (bs : ℚ),
      findBestAux tw th pool i bi bs =
        pickBest th (pool.map (fun ew => calculateSimilarity ew tw)) i bi bs := by
  intro pool
  induction pool with
  | nil => intro i bi bs; rfl
  | cons ew rest ih =>
    intro i bi bs
    simp only [findBestAux, List.map_cons, pickBest]
    split_ifs <;> exact ih _ _ _

theorem pickBest_eq_bestAbove (th : ℚ) :
    ∀ (sims : List ℚ) (i : Nat) (bi : Int) (bs : ℚ),
      pickBest th sims i bi bs =
        match bestAbove th bs sims with
        | none => (bi, bs)
        | some jm => ((i : Int) + (jm.1 : Int), jm.2) := by
  intro sims
  induction sims with
  | nil => intro i bi bs; rfl
  | cons s rest ih =>
    intro i bi bs
    simp only [pickBest, bestAbove]
    split_ifs with hc
    · rw [ih (i + 1) (i : Int) s]
      cases hba : bestAbove th s rest with
      | none => simp [hba]
      | some jm =>
        simp only [hba]
        refine Prod.ext ?_ rfl
        push_cast
        ring
    · rw [ih (i + 1) bi bs]
      cases hba : bestAbove th bs rest with
      | none => simp [hba]
      | some jm =>
        simp only [hba]
        refine Prod.ext ?_ rfl
        push_cast
        ring

theorem bestAbove_none_iff (th : ℚ) :
    ∀ (sims : List ℚ) (bs : ℚ),
      bestAbove th bs sims = none ↔ ∀ s ∈ sims, ¬(bs < s ∧ th ≤ s) := by
  intro sims
  induction sims with
  | nil => intro bs; simp [bestAbove]
  | cons s rest ih =>
    intro bs
    simp only [bestAbove]
    split_ifs with hc
    · cases hba : bestAbove th s rest with
      | none => simp [hc]
      | some jm => simp [hc]
    · cases hba : bestAbove th bs rest with
      | none =>
        simp only [List.mem_cons]
        constructor
        · intro _ x hx
          rcases hx with rfl | hx
          · exact hc
          · exact ((ih bs).mp hba) x hx
        · intro _; trivial
      | some jm =>
        simp only [List.mem_cons]
        constructor
        · intro habs; exact absurd habs (by simp)
        · intro hall
          have : bestAbove th bs rest = none := (ih bs).mpr (fun x hx => hall x (Or.inr hx))
          rw [this] at hba
          exact absurd hba (by simp)

theorem bestAbove_some_spec (th : ℚ) :
    ∀ (sims : List ℚ) (bs : ℚ) (j : Nat) (m : ℚ),
      bestAbove th bs sims = some (j, m) →
      j < sims.length ∧ sims.getD j 0 = m ∧ bs < m ∧ th ≤ m ∧
        (∀ k, k < j → sims.getD k 0 ≠ m) ∧
        (∀ s ∈ sims, th ≤ s → bs < s → s ≤ m) := by
  intro sims
  induction sims with
  | nil => intro bs j m h; simp [bestAbove] at h
  | cons s rest ih =>
    intro bs j m h
    simp only [bestAbove] at h
    split_ifs at h with hc
    · cases hba : bestAbove th s rest with
      | none =>
        rw [hba] at h
        simp only [Option.some.injEq, Prod.mk.injEq] at h
        obtain ⟨rfl, rfl⟩ := h
        have hnone := (bestAbove_none_iff th rest s).mp hba
        refine ⟨by simp, rfl, hc.1, hc.2, by omega, ?_⟩
        intro x hx hthx hbsx
        rcases List.mem_cons.mp hx with rfl | hxr
        · exact le_rfl
        · by_contra hlt
          exact hnone x hxr ⟨by linarith, hthx⟩
      | some jm =>
        rw [hba] at h
        simp only [Option.some.injEq, Prod.mk.injEq] at h
        obtain ⟨rfl, rfl⟩ := h
        obtain ⟨hlen, hget, hlt, hth, hfirst, hub⟩ := ih s jm.1 jm.2 (by rw [hba])
        refine ⟨by simpa using hlen, by simpa using hget, lt_trans hc.1 hlt, hth, ?_, ?_⟩
        · intro k hk
          cases k with
          | zero =>
            simp only [List.getD_cons_zero]
            exact ne_of_lt hlt
          | succ k =>
            simp only [List.getD_cons_succ]
            exact hfirst k (by omega)
        · intro x hx hthx hbsx
          rcases List.mem_cons.mp hx with rfl | hxr
          · exact le_of_lt hlt
          · rcases le_or_lt x s with hxs | hsx
            · linarith
            · exact hub x hxr hthx hsx
    · cases hba : bestAbove th bs rest with
      | none => rw [hba] at h; exact absurd h (by simp)
      | some jm =>
        rw [hba] at h
        simp only [Option.some.injEq, Prod.mk.injEq] at h
        obtain ⟨rfl, rfl⟩ := h
        obtain ⟨hlen, hget, hlt, hth, hfirst, hub⟩ := ih bs jm.1 jm.2 (by rw [hba])
        refine ⟨by simpa using hlen, by simpa using hget, hlt, hth, ?_, ?_⟩
        · intro k hk
          cases k with
          | zero =>
            simp only [List.getD_cons_zero]
            intro hsm
            exact hc (hsm ▸ ⟨hlt, hth⟩)
          | succ k =>
            simp only [List.getD_cons_succ]
            exact hfirst k (by omega)
        · intro x hx hthx hbsx
          rcases List.mem_cons.mp hx with rfl | hxr
          · exact absurd ⟨hbsx, hthx⟩ hc
          · exact hub x hxr hthx hbsx

theorem listMax_eq_none {l : List ℚ} : listMax l = none ↔ l = [] := by
  cases l with
  | nil => simp [listMax]
  | cons s rest =>
    simp only [listMax]
    cases listMax rest <;> simp

theorem listMax_mem {l : List ℚ} {m : ℚ} (h : listMax l = some m) :
    m ∈ l ∧ ∀ x ∈ l, x ≤ m := by
  induction l generalizing m with
  | nil => simp [listMax] at h
  | cons s rest ih =>
    simp only [listMax] at h
    cases hr : listMax rest with
    | none =>
      rw [hr] at h
      simp only [Option.some.injEq] at h
      subst h
      have : rest = [] := listMax_eq_none.mp hr
      subst this
      simp
    | some mr =>
      rw [hr] at h
      simp only [Option.some.injEq] at h
      subst h
      obtain ⟨hmem, hub⟩ := ih hr
      constructor
      · rcases le_total s mr with hle | hle
        · rw [max_eq_right hle]
          exact List.mem_cons_of_mem s hmem
        · rw [max_eq_left hle]
          exact List.mem_cons_self s rest
      · intro x hx
        rcases List.mem_cons.mp hx with rfl | hxr
        · exact le_max_left _ _
        · exact le_trans (hub x hxr) (le_max_right _ _)

theorem listMax_eq_some {l : List ℚ} {m : ℚ} (hmem : m ∈ l) (hub : ∀ x ∈ l, x ≤ m) :
    listMax l = some m := by
  induction l with
  | nil => simp at hmem
  | cons s rest ih =>
    simp only [listMax]
    cases hr : listMax rest with
    | none =>
      have hre : rest = [] := listMax_eq_none.mp hr
      subst hre
      simp only [List.mem_singleton] at hmem
      simp [listMax, hmem]
    | some mr =>
      obtain ⟨hmr, hmru⟩ := listMax_mem hr
      show some (max s mr) = some m
      rcases List.mem_cons.mp hmem with rfl | hmr2
      · have hmrle : mr ≤ m := hub mr (List.mem_cons_of_mem m hmr)
        exact congrArg some (max_eq_left hmrle)
      · have h1 : m ≤ mr := hmru m hmr2
        have h2 : mr ≤ m := hub mr (List.mem_cons_of_mem s hmr)
        have hse : s ≤ m := hub s (List.mem_cons_self s rest)
        have hem : mr = m := le_antisymm h2 h1
        subst hem
        exact congrArg some (max_eq_right hse)

theorem firstIdxOf_eq {m : ℚ} :
    ∀ (sims : List ℚ) (j : Nat), j < sims.length → sims.getD j 0 = m →
      (∀ k, k < j → sims.getD k 0 ≠ m) → firstIdxOf m sims = j := by
  intro sims
  induction sims with
  | nil => intro j hj; simp at hj
  | cons s rest ih =>
    intro j hj hget hfirst
    cases j with
    | zero =>
      simp only [List.getD_cons_zero] at hget
      simp [firstIdxOf, hget]
    | succ j =>
      have hs : s ≠ m := by
        have := hfirst 0 (by omega)
        simpa using this
      simp only [firstIdxOf, if_neg hs]
      have := ih j (by simp only [List.length_cons] at hj; omega)
        (by simpa using hget)
        (fun k hk => by simpa using hfirst (k + 1) (by omega))
      omega

theorem specPickAmended_eq (th : ℚ) (sims : List ℚ) :
    specPickAmended th sims =
      match bestAbove th 0 sims with
      | none => none
      | some jm => some jm.1 := by
  cases hba : bestAbove th 0 sims with
  | none =>
    have hall := (bestAbove_none_iff th sims 0).mp hba
    unfold specPickAmended
    have hfe : sims.filter (fun s => decide (th ≤ s ∧ 0 < s)) = [] := by
      rw [List.filter_eq_nil_iff]
      intro a ha
      simp only [decide_eq_true_iff]
      intro hcon
      exact hall a ha ⟨hcon.2, hcon.1⟩
    rw [hfe]
    rfl
  | some jm =>
    obtain ⟨hlen, hget, hpos, hth, hfirst, hub⟩ :=
      bestAbove_some_spec th sims 0 jm.1 jm.2 (by rw [hba])
    have hmem : jm.2 ∈ sims := by
      rw [List.getD_eq_getElem _ _ hlen] at hget
      exact hget ▸ List.getElem_mem hlen
    have hmemf : jm.2 ∈ sims.filter (fun s => decide (th ≤ s ∧ 0 < s)) := by
      rw [List.mem_filter]
      exact ⟨hmem, by simp [hth, hpos]⟩
    have hubf : ∀ x ∈ sims.filter (fun s => decide (th ≤ s ∧ 0 < s)), x ≤ jm.2 := by
      intro x hx
      rw [List.mem_filter] at hx
      have hpx := hx.2
      simp only [decide_eq_true_iff] at hpx
      exact hub x hx.1 hpx.1 hpx.2
    unfold specPickAmended
    rw [listMax_eq_some hmemf hubf]
    show some (firstIdxOf jm.2 sims) = some jm.1
    rw [firstIdxOf_eq sims jm.1 hlen hget hfirst]

theorem matchStep_eq_specStep (th : ℚ) (st : List JSStr × List JSStr × Nat) (tw : JSStr) :
    matchStep th st tw = specStepWith specPickAmended th st tw := by
  obtain ⟨m, u, c⟩ := st
  simp only [matchStep, specStepWith]
  rw [findBestAux_eq_pickBest, pickBest_eq_bestAbove, specPickAmended_eq]
  cases hba : bestAbove th 0 (u.map (fun ew => calculateSimilarity ew tw)) with
  | none => simp
  | some jm =>
    simp only [Nat.cast_zero, zero_add]
    have hne : ¬((jm.1 : Int) = -1) := by omega
    rw [if_neg hne]
    simp

/-- **C1** amended: `matchWords` processes candidate words in candidate order
and, for each candidate word, selects the not-yet-matched reference entry
whose similarity to that candidate is highest, **strictly positive**, and
`≥ threshold`, breaking ties by earliest pool position; the selected entry is
removed from the pool and `matchedCount` is incremented, and a candidate with
no such entry contributes nothing.  (The claim as stated omits the strict
positivity, which the `similarity > bestMatchSimilarity` test of the loop
against an initial best of `0` enforces; it matters exactly when `threshold = 0`.) -/
theorem matchWords_greedy_amended (th : ℚ) (refWords candWords : List JSStr) :
    matchLoop th refWords candWords = specLoopAmended th refWords candWords ∧
    ∀ e t : JSStr,
      (matchWordsCore e t th).matchedWords =
        (specLoopAmended th (extractWords e) (extractWords t)).1 ∧
      (matchWordsCore e t th).unmatchedWords =
        (specLoopAmended th (extractWords e) (extractWords t)).2.1 ∧
      (matchWordsCore e t th).matchedCount =
        (specLoopAmended th (extractWords e) (extractWords t)).2.2 := by
  have hstep : matchStep th = specStepWith specPickAmended th :=
    funext fun st => funext fun tw => matchStep_eq_specStep th st tw
  have hloop : ∀ pool tws, matchLoop th pool tws = specLoopAmended th pool tws := by
    intro pool tws
    unfold matchLoop specLoopAmended
    rw [hstep]
  refine ⟨hloop _ _, fun e t => ?_⟩
  rw [matchWordsCore_fields, ← hloop]
  exact ⟨rfl, rfl, rfl⟩

/-- The two distinct single-letter words `ب` and `ا` have similarity `0`. -/
theorem simBaAlef : calculateSimilarity [0x628] [0x627] = 0 := by
  unfold calculateSimilarity
  rw [if_neg (by decide), if_neg (by decide)]
  have h1 : normalizeArabic [0x628] = [0x628] := rfl
  have h2 : normalizeArabic [0x627] = [0x627] := rfl
  have h3 : levenshteinDistance3 [0x628] [0x627] = 1 := rfl
  simp only [h1, h2, h3]
  rw [if_neg (by decide)]
  norm_num

/-- **C1** counterexample: at threshold `0` (inside `[0,1]`) with a single
reference word of similarity `0` to the single candidate word, the claimed
rule ("highest similarity that is also ≥ threshold") consumes the reference
word, but the source loop consumes nothing, because an entry of similarity
`0` never beats the initial best of `0` under the strict comparison. -/
theorem matchWords_greedy_claim_counterexample :
    specLoopClaim 0 [[0x628]] [[0x627]] = ([[0x628]], [], 1) ∧
    matchLoop 0 [[0x628]] [[0x627]] = ([], [[0x628]], 0) ∧
    calculateSimilarity [0x628] [0x627] = 0 ∧
    ((0 : ℚ) ≤ 0 ∧ (0 : ℚ) ≤ 1) := by
  have hsim := simBaAlef
  refine ⟨?_, ?_, hsim, by norm_num⟩
  · have hfilter : List.filter (fun s => decide ((0 : ℚ) ≤ s)) [0] = [0] := by
      rw [List.filter_cons, decide_eq_true (le_refl (0 : ℚ))]
      rfl
    simp only [specLoopClaim, List.foldl_cons, List.foldl_nil, specStepWith, List.map_cons,
      List.map_nil, hsim, specPickClaim, hfilter]
    simp [listMax, firstIdxOf]
  · simp only [matchLoop, List.foldl_cons, List.foldl_nil, matchStep, findBestAux, hsim]
    have hc : ¬((0 : ℚ) < 0 ∧ (0 : ℚ) ≤ 0) := by norm_num
    rw [if_neg hc]
    rfl

/-! ### The non-consuming reporting view -/

theorem calculateSimilarity_nonneg (a b : JSStr) : 0 ≤ calculateSimilarity a b := by
  simp only [calculateSimilarity]
  split_ifs with h1 h2 h3 h4
  · norm_num
  · exact le_rfl
  · norm_num
  · rw [sub_nonneg]
    have hd : levenshteinDistance3 (normalizeArabic a) (normalizeArabic b) ≤
        max (normalizeArabic a).length (normalizeArabic b).length := by
      rw [levenshteinDistance3_eq_lev]
      exact lev_le_max _ _
    rw [div_le_one (by exact_mod_cast h4)]
    exact_mod_cast hd
  · exact le_rfl

theorem bestForWord_spec (ew : JSStr) :
    ∀ (tws : List JSStr) (bm : JSStr) (br : ℚ),
      br ≤ (bestForWord ew tws bm br).2 ∧
      (∀ tw ∈ tws, calculateSimilarity ew tw ≤ (bestForWord ew tws bm br).2) ∧
      (((bestForWord ew tws bm br).1 = bm ∧ (bestForWord ew tws bm br).2 = br) ∨
        ∃ tw ∈ tws, (bestForWord ew tws bm br).1 = tw ∧
          (bestForWord ew tws bm br).2 = calculateSimilarity ew tw) := by
  intro tws
  induction tws with
  | nil => intro bm br; exact ⟨le_rfl, by simp, Or.inl ⟨rfl, rfl⟩⟩
  | cons tw tws ih =>
    intro bm br
    simp only [bestForWord]
    split_ifs with hc
    · obtain ⟨h1, h2, h3⟩ := ih tw (calculateSimilarity ew tw)
      refine ⟨le_trans (le_of_lt hc) h1, ?_, ?_⟩
      · intro x hx
        rcases List.mem_cons.mp hx with rfl | hxr
        · exact h1
        · exact h2 x hxr
      · rcases h3 with ⟨ha, hb⟩ | ⟨x, hx, ha, hb⟩
        · exact Or.inr ⟨tw, List.mem_cons_self _ _, ha, hb⟩
        · exact Or.inr ⟨x, List.mem_cons_of_mem _ hx, ha, hb⟩
    · push_neg at hc
      obtain ⟨h1, h2, h3⟩ := ih bm br
      refine ⟨h1, ?_, ?_⟩
      · intro x hx
        rcases List.mem_cons.mp hx with rfl | hxr
        · exact le_trans hc h1
        · exact h2 x hxr
      · rcases h3 with ⟨ha, hb⟩ | ⟨x, hx, ha, hb⟩
        · exact Or.inl ⟨ha, hb⟩
        · exact Or.inr ⟨x, List.mem_cons_of_mem _ hx, ha, hb⟩

theorem componentRecord (e t : JSStr) (i : Nat) (hi : i < (extractWords e).length) :
    (componentMatchWords e t).1.getD i ⟨[], [], 0, false⟩ =
      { expectedWord := (extractWords e).getD i []
        bestMatch := if 0 < (bestForWord ((extractWords e).getD i []) (extractWords t)
              notFound 0).2 then
            (bestForWord ((extractWords e).getD i []) (extractWords t) notFound 0).1
          else notFound
        ratio := (bestForWord ((extractWords e).getD i []) (extractWords t) notFound 0).2
        matched := decide ((3 / 5 : ℚ) ≤
          (bestForWord ((extractWords e).getD i []) (extractWords t) notFound 0).2) } := by
  simp only [componentMatchWords]
  rw [List.getD_eq_getElem _ _ (by simpa using hi), List.getElem_map,
    List.getD_eq_getElem _ _ hi]

/-- **C4** amended: the reporting view produces one `MatchResult` per
reference word, in reference order; the recorded similarity is the maximum
similarity over the entire, unmodified candidate list (no threshold applied
to the search); `matched` holds iff that similarity is `≥ 0.6`; when the
maximum is strictly positive the recorded best match is a candidate word
attaining it, but when the maximum is `0` the placeholder `notFound` is
recorded instead of a candidate word; the view is non-consuming, so the same
candidate word can be the recorded best match of several reference words
(witnessed by the repeated-word example in the final clause). -/
theorem reporting_view_amended (e t : JSStr) :
    ((componentMatchWords e t).1.length = (extractWords e).length ∧
    ∀ i, i < (extractWords e).length →
      ((componentMatchWords e t).1.getD i ⟨[], [], 0, false⟩).expectedWord =
        (extractWords e).getD i [] ∧
      (∀ tw ∈ extractWords t,
        calculateSimilarity ((extractWords e).getD i []) tw ≤
          ((componentMatchWords e t).1.getD i ⟨[], [], 0, false⟩).ratio) ∧
      (extractWords t ≠ [] → ∃ tw ∈ extractWords t,
        ((componentMatchWords e t).1.getD i ⟨[], [], 0, false⟩).ratio =
          calculateSimilarity ((extractWords e).getD i []) tw) ∧
      (0 < ((componentMatchWords e t).1.getD i ⟨[], [], 0, false⟩).ratio →
        ∃ tw ∈ extractWords t,
          ((componentMatchWords e t).1.getD i ⟨[], [], 0, false⟩).bestMatch = tw ∧
          calculateSimilarity ((extractWords e).getD i []) tw =
            ((componentMatchWords e t).1.getD i ⟨[], [], 0, false⟩).ratio) ∧
      (((componentMatchWords e t).1.getD i ⟨[], [], 0, false⟩).ratio ≤ 0 →
        ((componentMatchWords e t).1.getD i ⟨[], [], 0, false⟩).bestMatch = notFound) ∧
      (((componentMatchWords e t).1.getD i ⟨[], [], 0, false⟩).matched = true ↔
        (3 / 5 : ℚ) ≤ ((componentMatchWords e t).1.getD i ⟨[], [], 0, false⟩).ratio)) ∧
    (((componentMatchWords [0x643, 0x62A, 0x627, 0x628, 0x20, 0x643, 0x62A, 0x627, 0x628]
          [0x643, 0x62A, 0x627, 0x628]).1.getD 0 ⟨[], [], 0, false⟩).bestMatch =
        ((componentMatchWords [0x643, 0x62A, 0x627, 0x628, 0x20, 0x643, 0x62A, 0x627, 0x628]
          [0x643, 0x62A, 0x627, 0x628]).1.getD 1 ⟨[], [], 0, false⟩).bestMatch ∧
      ((componentMatchWords [0x643, 0x62A, 0x627, 0x628, 0x20, 0x643, 0x62A, 0x627, 0x628]
          [0x643, 0x62A, 0x627, 0x628]).1.getD 0 ⟨[], [], 0, false⟩).bestMatch ∈
        extractWords [0x643, 0x62A, 0x627, 0x628] ∧
      (componentMatchWords [0x643, 0x62A, 0x627, 0x628, 0x20, 0x643, 0x62A, 0x627, 0x628]
          [0x643, 0x62A, 0x627, 0x628]).1.length = 2) := by
  constructor
  · constructor
    · simp [componentMatchWords]
    · intro i hi
      rw [componentRecord e t i hi]
      obtain ⟨h1, h2, h3⟩ :=
        bestForWord_spec ((extractWords e).getD i []) (extractWords t) notFound 0
      refine ⟨rfl, h2, ?_, ?_, ?_, ?_⟩
      · intro htne
        rcases h3 with ⟨_, hb⟩ | ⟨x, hx, _, hb⟩
        · match ht : extractWords t, htne with
          | tw :: tws, _ =>
            refine ⟨tw, List.mem_cons_self _ _, ?_⟩
            rw [ht] at h2 hb
            have hle := h2 tw (List.mem_cons_self _ _)
            have hge := calculateSimilarity_nonneg ((extractWords e).getD i []) tw
            rw [hb]
            linarith
        · exact ⟨x, hx, hb⟩
      · intro hpos
        rcases h3 with ⟨_, hb⟩ | ⟨x, hx, ha, hb⟩
        · rw [hb] at hpos
          exact absurd hpos (lt_irrefl 0)
        · refine ⟨x, hx, ?_, hb.symm⟩
          rw [if_pos hpos]
          exact ha
      · intro hle
        rw [if_neg (not_lt.mpr hle)]
      · exact decide_eq_true_iff
  · have hexE : extractWords
        [0x643, 0x62A, 0x627, 0x628, 0x20, 0x643, 0x62A, 0x627, 0x628] =
        [[0x643, 0x62A, 0x627, 0x628], [0x643, 0x62A, 0x627, 0x628]] := rfl
    have hexT : extractWords [0x643, 0x62A, 0x627, 0x628] =
        [[0x643, 0x62A, 0x627, 0x628]] := rfl
    have hsim1 : calculateSimilarity [0x643, 0x62A, 0x627, 0x628]
        [0x643, 0x62A, 0x627, 0x628] = 1 := by
      unfold calculateSimilarity
      rw [if_pos rfl]
    have hbest : bestForWord [0x643, 0x62A, 0x627, 0x628]
        [[0x643, 0x62A, 0x627, 0x628]] notFound 0 = ([0x643, 0x62A, 0x627, 0x628], 1) := by
      simp only [bestForWord, hsim1]
      rw [if_pos (by norm_num : (0 : ℚ) < 1)]
    have h0 := componentRecord
      [0x643, 0x62A, 0x627, 0x628, 0x20, 0x643, 0x62A, 0x627, 0x628]
      [0x643, 0x62A, 0x627, 0x628] 0 (by rw [hexE]; norm_num)
    have h1 := componentRecord
      [0x643, 0x62A, 0x627, 0x628, 0x20, 0x643, 0x62A, 0x627, 0x628]
      [0x643, 0x62A, 0x627, 0x628] 1 (by rw [hexE]; norm_num)
    rw [hexE, hexT] at h0 h1
    simp only [List.getD_cons_zero, List.getD_cons_succ, hbest] at h0 h1
    rw [if_pos (by norm_num : (0 : ℚ) < 1)] at h0 h1
    rw [h0, h1]
    refine ⟨rfl, ?_, ?_⟩
    · rw [hexT]
      simp
    · simp [componentMatchWords, hexE]

/-- Witness for **C4** (amended): the per-record clauses applied at a concrete
one-word reference and candidate. -/
theorem reporting_view_amended_witness :
    (((componentMatchWords [0x628] [0x628]).1.getD 0 ⟨[], [], 0, false⟩).expectedWord =
      (extractWords [0x628]).getD 0 []) ∧
    (∃ tw ∈ extractWords [0x628],
      ((componentMatchWords [0x628] [0x628]).1.getD 0 ⟨[], [], 0, false⟩).ratio =
        calculateSimilarity ((extractWords [0x628]).getD 0 []) tw) := by
  have h := (reporting_view_amended [0x628] [0x628]).1.2 0 (by decide)
  exact ⟨h.1, h.2.2.1 (by decide)⟩

/-- **C4** counterexample: the claim reads the recorded best match as the
best candidate over the entire candidate list, but when every candidate has
similarity `0` to the reference word (all below the threshold, where the spec
says the best word is still recorded), the code records the placeholder
`notFound`, which is not a candidate word at all. -/
theorem reporting_view_claim_counterexample :
    (componentMatchWords [0x628] [0x627]).1.length = 1 ∧
    ((componentMatchWords [0x628] [0x627]).1.getD 0 ⟨[], [], 0, false⟩).ratio = 0 ∧
    ((componentMatchWords [0x628] [0x627]).1.getD 0 ⟨[], [], 0, false⟩).bestMatch =
      notFound ∧
    extractWords [0x627] ≠ [] ∧
    ¬∃ tw ∈ extractWords [0x627],
      ((componentMatchWords [0x628] [0x627]).1.getD 0 ⟨[], [], 0, false⟩).bestMatch = tw := by
  have hexE : extractWords [0x628] = [[0x628]] := rfl
  have hexT : extractWords [0x627] = [[0x627]] := rfl
  have hbest : bestForWord [0x628] [[0x627]] notFound 0 = (notFound, 0) := by
    simp only [bestForWord, simBaAlef]
    rw [if_neg (lt_irrefl (0 : ℚ))]
  have h0 := componentRecord [0x628] [0x627] 0 (by rw [hexE]; norm_num)
  rw [hexE, hexT] at h0
  simp only [List.getD_cons_zero, hbest] at h0
  rw [if_neg (lt_irrefl (0 : ℚ))] at h0
  rw [h0]
  refine ⟨by simp [componentMatchWords, hexE], rfl, rfl, by rw [hexT]; simp, ?_⟩
  rw [hexT]
  simp only [List.mem_singleton]
  rintro ⟨tw, rfl, habs⟩
  exact absurd habs (by decide)

/-! ### Session completion gating -/

/-- **C10.** The session layer never declares recitation complete — neither
the "good" tier (every record has similarity `≥ 0.45`) nor the "perfect" tier
(every record `matched`) — unless all three gates hold simultaneously: at
least one `MatchResult` exists, the transcript character length exceeds `10`,
and the ratio of candidate word count to reference word count is `≥ 0.9`. -/
theorem completion_gating (v t : JSStr) :
    (handleUpdateDetection v t).1 = true ∨ (handleUpdateDetection v t).2 = true →
      (componentMatchWords v t).1 ≠ [] ∧ 10 < t.length ∧
      (9 / 10 : ℚ) ≤ ((extractWords t).length : ℚ) / ((extractWords v).length : ℚ) := by
  intro h
  simp only [handleUpdateDetection, Bool.and_eq_true, decide_eq_true_eq] at h
  have hmin : ∀ x : ℚ, (9 / 10 : ℚ) ≤ min 1 x → (9 / 10 : ℚ) ≤ x :=
    fun x hx => (le_min_iff.mp hx).2
  rcases h with ⟨⟨⟨hlen, _⟩, htl⟩, hvp⟩ | ⟨⟨⟨_, hlen⟩, htl⟩, hvp⟩
  · exact ⟨List.length_pos.mp hlen, htl, hmin _ hvp⟩
  · exact ⟨List.length_pos.mp hlen, htl, hmin _ hvp⟩

/-- Witness for **C10**: a transcript identical to an 11-character one-word
verse triggers the "perfect" tier, and all three gates hold. -/
theorem completion_gating_witness :
    (componentMatchWords
        [0x628, 0x628, 0x628, 0x628, 0x628, 0x628, 0x628, 0x628, 0x628, 0x628, 0x628]
        [0x628, 0x628, 0x628, 0x628, 0x628, 0x628, 0x628, 0x628, 0x628, 0x628, 0x628]).1 ≠ [] ∧
    10 < ([0x628, 0x628, 0x628, 0x628, 0x628, 0x628, 0x628, 0x628, 0x628, 0x628,
      0x628] : JSStr).length ∧
    (9 / 10 : ℚ) ≤
      ((extractWords [0x628, 0x628, 0x628, 0x628, 0x628, 0x628, 0x628, 0x628, 0x628, 0x628,
        0x628]).length : ℚ) /
      ((extractWords [0x628, 0x628, 0x628, 0x628, 0x628, 0x628, 0x628, 0x628, 0x628, 0x628,
        0x628]).length : ℚ) := by
  apply completion_gating
  right
  have hex : extractWords
      [0x628, 0x628, 0x628, 0x628, 0x628, 0x628, 0x628, 0x628, 0x628, 0x628, 0x628] =
      [[0x628, 0x628, 0x628, 0x628, 0x628, 0x628, 0x628, 0x628, 0x628, 0x628, 0x628]] := rfl
  have hsim1 : calculateSimilarity
      [0x628, 0x628, 0x628, 0x628, 0x628, 0x628, 0x628, 0x628, 0x628, 0x628, 0x628]
      [0x628, 0x628, 0x628, 0x628, 0x628, 0x628, 0x628, 0x628, 0x628, 0x628, 0x628] = 1 := by
    unfold calculateSimilarity
    rw [if_pos rfl]
  have hbest : bestForWord
      [0x628, 0x628, 0x628, 0x628, 0x628, 0x628, 0x628, 0x628, 0x628, 0x628, 0x628]
      [[0x628, 0x628, 0x628, 0x628, 0x628, 0x628, 0x628, 0x628, 0x628, 0x628, 0x628]]
      notFound 0 =
      ([0x628, 0x628, 0x628, 0x628, 0x628, 0x628, 0x628, 0x628, 0x628, 0x628, 0x628], 1) := by
    simp only [bestForWord, hsim1]
    rw [if_pos (by norm_num : (0 : ℚ) < 1)]
  have hrs : (componentMatchWords
      [0x628, 0x628, 0x628, 0x628, 0x628, 0x628, 0x628, 0x628, 0x628, 0x628, 0x628]
      [0x628, 0x628, 0x628, 0x628, 0x628, 0x628, 0x628, 0x628, 0x628, 0x628, 0x628]).1 =
      [{ expectedWord :=
          [0x628, 0x628, 0x628, 0x628, 0x628, 0x628, 0x628, 0x628, 0x628, 0x628, 0x628]
         bestMatch :=
          [0x628, 0x628, 0x628, 0x628, 0x628, 0x628, 0x628, 0x628, 0x628, 0x628, 0x628]
         ratio := 1
         matched := true }] := by
    simp only [componentMatchWords, hex, List.map_cons, List.map_nil, hbest]
    rw [if_pos (by norm_num : (0 : ℚ) < 1),
      show decide ((3 / 5 : ℚ) ≤ 1) = true from decide_eq_true (by norm_num)]
  show (handleUpdateDetection _ _).2 = true
  simp only [handleUpdateDetection, hrs, hex]
  simp only [List.all_cons, List.all_nil, List.length_singleton, List.length_cons,
    List.length_nil, Nat.cast_one, Bool.and_true, Bool.and_eq_true, decide_eq_true_eq]
  refine ⟨⟨⟨trivial, ?_⟩, ?_⟩, ?_⟩
  · norm_num
  · norm_num
  · norm_num [min_self]
